import Mathlib

/-!
Verification of the pyditz issue time-tracking utility (src/pyditz.py).

The embedding below is a shallow translation of the Python source:

* Instants (Python `datetime`) are modelled as seconds since 1970-01-01
  00:00 (an `Int`), calendar dates (Python `date`) as days since 1970-01-01
  (an `Int`), and durations (Python `timedelta`) as seconds (an `Int`).
  Python floor division by a positive constant is `Int` division
  (`Int.ediv`; Euclidean and floor division agree for a positive divisor).
* `date()` conversion is division by 86400; `date.timetuple()[:3]` back to a
  midnight datetime is multiplication by 86400; `isocalendar()[:2]` is
  computed by the standard proleptic-Gregorian algorithms (`civilFromDays`,
  `daysFromCivil`, `isocalendar`).
* A `defaultdict(timedelta)` is an association list `List (κ × Int)`;
  `d[k] += v` is `bump`, which also inserts an explicit entry when the key
  is absent, exactly as `defaultdict.__getitem__` does (even for v = 0).
* Status-change messages are modelled as their character lists
  (`List Char`), and the three anchored regular expressions of the source
  are translated to explicit prefix matchers (see `parse_status`).
* `raise ValueError` is an `Except PyErr` result.
-/

namespace PyDitz

/-! ### Proleptic Gregorian calendar arithmetic

`civilFromDays`/`daysFromCivil` are the standard conversions between a day
count (0 = 1970-01-01) and a calendar date, mirroring what Python's
`datetime.date` provides.  `isocalendar` returns the ISO-8601
(year, week) pair of a day, as `date.isocalendar()[:2]` does. -/

def civilFromDays (z0 : Int) : Int × Int × Int :=
  let z := z0 + 719468
  let era := Int.ediv z 146097
  let doe := z - era * 146097
  let yoe := Int.ediv (doe - Int.ediv doe 1460 + Int.ediv doe 36524 - Int.ediv doe 146096) 365
  let y := yoe + era * 400
  let doy := doe - (365 * yoe + Int.ediv yoe 4 - Int.ediv yoe 100)
  let mp := Int.ediv (5 * doy + 2) 153
  let d := doy - Int.ediv (153 * mp + 2) 5 + 1
  let m := if mp < 10 then mp + 3 else mp - 9
  (if m ≤ 2 then y + 1 else y, m, d)

def daysFromCivil (y0 m d : Int) : Int :=
  let y := if m ≤ 2 then y0 - 1 else y0
  let era := Int.ediv y 400
  let yoe := y - era * 400
  let doy := Int.ediv (153 * (if m > 2 then m - 3 else m + 9) + 2) 5 + d - 1
  let doe := yoe * 365 + Int.ediv yoe 4 - Int.ediv yoe 100 + doy
  era * 146097 + doe - 719468

/-- ISO weekday of a day count, Monday = 1 .. Sunday = 7
(1970-01-01 was a Thursday). -/
def isoWeekday (z : Int) : Int := Int.emod (z + 3) 7 + 1

/-- ISO-8601 (year, week) of a day count: the ISO year and week are those of
the Thursday of the day's Monday-based week.  Mirrors
`date.isocalendar()[:2]` in `TimeDistribution._add_to_day`. -/
def isocalendar (z : Int) : Int × Int :=
  let thu := z - isoWeekday z + 4
  let y := (civilFromDays thu).1
  let jan1 := daysFromCivil y 1 1
  (y, Int.ediv (thu - jan1) 7 + 1)

/-- `datetime(y, m, d, hh, mm)` as seconds since 1970-01-01 00:00. -/
def mkDT (y m d hh mm : Int) : Int :=
  daysFromCivil y m d * 86400 + hh * 3600 + mm * 60

/-! ### Association-list model of `defaultdict(timedelta)` -/

/-- Reading `d[k]` from a `defaultdict(timedelta)`: an absent key reads as
the zero duration.  (The mutating insert-on-read side effect of
`defaultdict.__getitem__` never changes any stored value, so reads are
modelled purely.) -/
def lookup {κ : Type} [DecidableEq κ] : List (κ × Int) → κ → Int
  | [], _ => 0
  | p :: rest, k => if p.1 = k then p.2 else lookup rest k

/-- `d[k] += v` on a `defaultdict(timedelta)`: update the entry of `k` if
present, otherwise insert the entry `(k, 0 + v)` — note the entry is
created even when `v` is zero, just as in Python. -/
def bump {κ : Type} [DecidableEq κ] : List (κ × Int) → κ → Int → List (κ × Int)
  | [], k, v => [(k, v)]
  | p :: rest, k, v => if p.1 = k then (p.1, p.2 + v) :: rest else p :: bump rest k v

/-- The keys of a bucket mapping. -/
def keys {κ : Type} (l : List (κ × Int)) : List κ := l.map Prod.fst

/-- The sum of all stored durations of a bucket mapping. -/
def sumVals {κ : Type} (l : List (κ × Int)) : Int := (l.map Prod.snd).sum

/-- The sum of the day-bucket durations of all days whose ISO (year, week)
pair is `k`. -/
def weekSum (l : List (Int × Int)) (k : Int × Int) : Int :=
  ((l.filter (fun p => decide (isocalendar p.1 = k))).map Prod.snd).sum

/-! ### `TimeDistribution` -/

/-- The state of a `TimeDistribution` object: configured split hour, the
`days` and `weeks` defaultdicts, and the running `total`. -/
structure TimeDistribution where
  splithour : Int
  days : List (Int × Int)
  weeks : List ((Int × Int) × Int)
  total : Int
deriving DecidableEq

/-- `TimeDistribution()` — the default `splithour=4` constructor used by
`Issue.total_time` and by `TimeDistribution.__add__`. -/
def TimeDistribution.init : TimeDistribution :=
  { splithour := 4, days := [], weeks := [], total := 0 }

/-- `TimeDistribution._add_to_day(day, duration)`. -/
def TimeDistribution.addToDay (t : TimeDistribution) (day duration : Int) :
    TimeDistribution :=
  { t with
    days := bump t.days day duration
    weeks := bump t.weeks (isocalendar day) duration
    total := t.total + duration }

/-- `TimeDistribution.add(dtstart, dtend)`: distribute the interval into
bucketing days.  A bucketing day runs from `splithour` to `splithour`
o'clock; `dstart`/`dend` are `(dt - splithour hours).date()`, and
`dateline` is the first day boundary after the bucketing day of `dtstart`.
The middle loop is Python's `for d in range(1, (dend - dstart).days)`. -/
def TimeDistribution.add (t : TimeDistribution) (dtstart dtend : Int) :
    TimeDistribution :=
  let dstart := (dtstart - t.splithour * 3600) / 86400
  let dend := (dtend - t.splithour * 3600) / 86400
  let dstart00h := dstart * 86400
  let dateline := dstart00h + 86400 + t.splithour * 3600
  if dtend > dateline then
    let t1 := t.addToDay dstart (dateline - dtstart)
    let t2 := (List.range' 1 (dend - dstart - 1).toNat).foldl
      (fun acc d => acc.addToDay (dstart + (d : Int)) 86400) t1
    t2.addToDay dend (dtend - dend * 86400)
  else
    t.addToDay dstart (dtend - dtstart)

/-- The union of the key sets of two bucket mappings, as iterated by
`TimeDistribution.__add__` (`mykeys.union(otherkeys)`; Python's set
iteration order is unspecified, and all properties proved below are
insensitive to the order chosen here). -/
def unionKeys {κ : Type} [DecidableEq κ] (a b : List (κ × Int)) : List κ :=
  keys a ++ (keys b).filter (fun k => decide (k ∉ keys a))

/-- One bucket mapping of the result of `TimeDistribution.__add__`:
`for key in mykeys.union(otherkeys): result[key] += mydict[key] + otherdict[key]`
starting from an empty defaultdict. -/
def mergeBuckets {κ : Type} [DecidableEq κ] (a b : List (κ × Int)) :
    List (κ × Int) :=
  (unionKeys a b).map (fun k => (k, lookup a k + lookup b k))

/-- `TimeDistribution.__add__`: `result = self.__class__()` (hence the
default split hour), buckets merged key-wise over the union of keys,
totals added. -/
def TimeDistribution.merge (a b : TimeDistribution) : TimeDistribution :=
  { splithour := 4
    days := mergeBuckets a.days b.days
    weeks := mergeBuckets a.weeks b.weeks
    total := a.total + b.total }

/-! ### `format_h_m` -/

/-- The apostrophe character used by the duration format. -/
def tick : String := String.singleton (Char.ofNat 39)

/-- `"%02d" % n` for a non-negative value. -/
def two_digits (n : Nat) : String :=
  if n < 10 then "0" ++ toString n else toString n

/-- `hours = 24 * delta.days + delta.seconds // 3600` for a non-negative
duration of `t` whole seconds (`timedelta` normalises to
`days = t // 86400`, `seconds = t % 86400`). -/
def hmHours (t : Nat) : Nat := 24 * (t / 86400) + t % 86400 / 3600

/-- `minutes = round(delta.seconds % 3600 / 60.0)`.  Python 2's `round`
rounds halves away from zero, so on the non-negative integer argument
`r = delta.seconds % 3600` it returns `(r + 30) / 60` exactly (the float
quotient `r / 60.0` is exact at every half-integer, so no double-rounding
occurs). -/
def hmMinutes (t : Nat) : Nat := (t % 86400 % 3600 + 30) / 60

/-- `format_h_m(delta)` for a non-negative duration of `t` whole seconds:
`"<hours>h<minutes two-digit>'"` if `hours` is nonzero (Python truthiness),
else `"<minutes>'"`. -/
def format_h_m (t : Nat) : String :=
  if hmHours t ≠ 0 then
    toString (hmHours t) ++ "h" ++ two_digits (hmMinutes t) ++ tick
  else
    toString (hmMinutes t) ++ tick

/-! ### `parse_status`

Status messages are character lists.  The three source regexes are
prefix-anchored (`re.match`):

* `CLOSE_STATUS  = closed (?:issue )?with disposition (\w+)`
* `CHANGE_STATUS = changed status from (unstarted|in_progress|paused|closed) to (in_progress|paused)`
* `ASSIGN_STATUS = assigned to release `

`startsWithL pat s` is anchored prefix matching of the literal part.  In
`CLOSE_STATUS` the optional `issue ` and the following `with ` can never
match at the same position (they differ at the first character), so the
regex backtracking collapses to the conditional below.  In `CHANGE_STATUS`
no alternative of either group is a prefix of another alternative, so at
most one alternative can match at a given position and ordered `find?`
equals the regex's ordered alternation with backtracking. -/

def startsWithL : List Char → List Char → Bool
  | [], _ => true
  | _ :: _, [] => false
  | p :: ps, c :: cs => if p = c then startsWithL ps cs else false

/-- `\w` for an ASCII pattern: `[a-zA-Z0-9_]`. -/
def isWordChar (c : Char) : Bool :=
  ('a' ≤ c && c ≤ 'z') || ('A' ≤ c && c ≤ 'Z') || ('0' ≤ c && c ≤ '9') || c = '_'

/-- Match of `CLOSE_STATUS`, returning the captured disposition word. -/
def matchClose (s : List Char) : Option (List Char) :=
  if startsWithL "closed ".data s then
    let r := s.drop 7
    let r2 := if startsWithL "issue ".data r then r.drop 6 else r
    if startsWithL "with disposition ".data r2 then
      let w := (r2.drop 17).takeWhile isWordChar
      if w.isEmpty then none else some w
    else none
  else none

/-- The alternatives of the first group of `CHANGE_STATUS`. -/
def fromStates : List (List Char) :=
  ["unstarted".data, "in_progress".data, "paused".data, "closed".data]

/-- The alternatives of the second group of `CHANGE_STATUS`. -/
def toStates : List (List Char) := ["in_progress".data, "paused".data]

/-- Match of `CHANGE_STATUS`, returning the two captured groups. -/
def matchChange (s : List Char) : Option (List Char × List Char) :=
  if startsWithL "changed status from ".data s then
    let r := s.drop 20
    match fromStates.find? (fun a => startsWithL a r) with
    | some a =>
      let r2 := r.drop a.length
      if startsWithL " to ".data r2 then
        match toStates.find? (fun b => startsWithL b (r2.drop 4)) with
        | some b => some (a, b)
        | none => none
      else none
    | none => none
  else none

/-- `parse_status(status)`: try `CLOSE_STATUS`, then `CHANGE_STATUS`, then
`ASSIGN_STATUS`; `none` is the `ValueError('Invalid status change message')`
raise. -/
def parse_status (s : List Char) :
    Option (Option (List Char) × Option (List Char)) :=
  match matchClose s with
  | some d => some (none, some d)
  | none =>
    match matchChange s with
    | some ab => some (some ab.1, some ab.2)
    | none =>
      if startsWithL "assigned to release ".data s then some (none, none)
      else none

/-! ### `Issue.total_time` interval extraction -/

/-- The two `ValueError`s raised inside `Issue.total_time` /
`parse_status`. -/
inductive PyErr where
  | invalidStatus (msg : List Char)
  | unknownStatus (status : List Char)
deriving DecidableEq

/-- One entry of `log_events`:
`(timestamp, person, status message, comment)`. -/
structure LogEvent where
  timestamp : Int
  person : List Char
  status : List Char
  comment : List Char
deriving DecidableEq

/-- The `filtered(timestamp)` predicate of `Issue.total_time`. -/
def filtered (earliest latest : Option Int) (t : Int) : Bool :=
  (match earliest with | some e => decide (t < e) | none => false) ||
  (match latest with | some l => decide (l < t) | none => false)

/-- The event loop of `Issue.total_time`, with the state variable
`dtstart : Option Int` made explicit and the `cum_time.add(dtstart,
timestamp)` calls recorded as the emitted interval list (in event order);
the final `dtstart` is returned alongside.  `created`/`commented` events
are skipped before parsing; a parse failure and an unrecognised `to`
status abort with the corresponding `ValueError`. -/
def extractAux (earliest latest : Option Int) :
    List LogEvent → Option Int → Except PyErr (List (Int × Int) × Option Int)
  | [], dtstart => .ok ([], dtstart)
  | ev :: rest, dtstart =>
    if ev.status = "created".data ∨ ev.status = "commented".data then
      extractAux earliest latest rest dtstart
    else
      match parse_status ev.status with
      | none => .error (.invalidStatus ev.status)
      | some st =>
        if st.2 = some "in_progress".data then
          extractAux earliest latest rest
            (if filtered earliest latest ev.timestamp then dtstart
             else some ev.timestamp)
        else if st.2 = some "paused".data ∨ st.2 = some "fixed".data then
          match dtstart with
          | some s =>
            (extractAux earliest latest rest none).map
              (fun r => ((s, ev.timestamp) :: r.1, r.2))
          | none => extractAux earliest latest rest none
        else
          match st.2 with
          | some u => .error (.unknownStatus u)
          | none => extractAux earliest latest rest dtstart

/-- Interval extraction over a whole event log, starting Idle
(`dtstart = None`). -/
def extract (earliest latest : Option Int) (events : List LogEvent) :
    Except PyErr (List (Int × Int) × Option Int) :=
  extractAux earliest latest events none

/-! ### Reachable distributions -/

/-- Distributions reachable from `TimeDistribution()` by `add` on intervals
with `start ≤ end` and by merging (`__add__`). -/
inductive Reachable : TimeDistribution → Prop where
  | empty : Reachable TimeDistribution.init
  | add (t : TimeDistribution) (s e : Int) :
      Reachable t → s ≤ e → Reachable (t.add s e)
  | merge (a b : TimeDistribution) :
      Reachable a → Reachable b → Reachable (a.merge b)

/-- Distributions reachable from `TimeDistribution()` by `add` on intervals
with `start < end` (strictly positive length) and by merging. -/
inductive ReachablePos : TimeDistribution → Prop where
  | empty : ReachablePos TimeDistribution.init
  | add (t : TimeDistribution) (s e : Int) :
      ReachablePos t → s < e → ReachablePos (t.add s e)
  | merge (a b : TimeDistribution) :
      ReachablePos a → ReachablePos b → ReachablePos (a.merge b)

/-! ### Fixtures and literal claim statements -/

instance exceptDecEq {ε α : Type} [DecidableEq ε] [DecidableEq α] :
    DecidableEq (Except ε α)
  | .error e1, .error e2 =>
    if h : e1 = e2 then isTrue (by rw [h])
    else isFalse (fun hc => h (Except.error.inj hc))
  | .error _, .ok _ => isFalse (fun hc => Except.noConfusion hc)
  | .ok _, .error _ => isFalse (fun hc => Except.noConfusion hc)
  | .ok a1, .ok a2 =>
    if h : a1 = a2 then isTrue (by rw [h])
    else isFalse (fun hc => h (Except.ok.inj hc))

/-- A `changed status from unstarted to in_progress` event at time `t`. -/
def activationEvent (t : Int) : LogEvent :=
  ⟨t, "p".data, "changed status from unstarted to in_progress".data, "".data⟩

/-- A `changed status from in_progress to paused` event at time `t`. -/
def pauseEvent (t : Int) : LogEvent :=
  ⟨t, "p".data, "changed status from in_progress to paused".data, "".data⟩

/-- A `closed issue with disposition wontfix` event at time `t`. -/
def wontfixEvent (t : Int) : LogEvent :=
  ⟨t, "p".data, "closed issue with disposition wontfix".data, "".data⟩

/-- A `closed issue with disposition fixed` event at time `t`. -/
def fixedEvent (t : Int) : LogEvent :=
  ⟨t, "p".data, "closed issue with disposition fixed".data, "".data⟩

/-- The literal statement of claim C5: while Active, a close event carrying
ANY disposition word emits the open interval and returns to Idle. -/
def claimC5Statement : Prop :=
  ∀ (el ll : Option Int) (ev : LogEvent) (rest : List LogEvent) (s : Int)
    (d : List Char),
    parse_status ev.status = some (none, some d) →
    extractAux el ll (ev :: rest) (some s) =
      (extractAux el ll rest none).map (fun r => ((s, ev.timestamp) :: r.1, r.2))

/-- The literal statement of claim C8: on every distribution reachable with
`start ≤ end` intervals (zero-length included), every stored day and week
key carries a non-zero duration. -/
def claimC8Statement : Prop :=
  ∀ t : TimeDistribution, Reachable t →
    (∀ k, k ∈ keys t.days → lookup t.days k ≠ 0) ∧
    (∀ k, k ∈ keys t.weeks → lookup t.weeks k ≠ 0)

/-- The literal statement of claim C9: whenever processing ends in the
Active state with start `s`, no emitted interval has start `s`. -/
def claimC9Statement : Prop :=
  ∀ (el ll : Option Int) (evs : List LogEvent) (ivs : List (Int × Int)) (s : Int),
    extract el ll evs = .ok (ivs, some s) → ∀ iv, iv ∈ ivs → iv.1 ≠ s

/-! ### Association-list lemmas -/

theorem bump_cons_eq {κ : Type} [DecidableEq κ] (pk : κ) (pv : Int)
    (rest : List (κ × Int)) (v : Int) :
    bump ((pk, pv) :: rest) pk v = (pk, pv + v) :: rest := by
  simp [bump]

theorem bump_cons_ne {κ : Type} [DecidableEq κ] {pk k : κ} (h : pk ≠ k) (pv : Int)
    (rest : List (κ × Int)) (v : Int) :
    bump ((pk, pv) :: rest) k v = (pk, pv) :: bump rest k v := by
  simp [bump, h]

theorem lookup_eq_zero {κ : Type} [DecidableEq κ] {l : List (κ × Int)} {k : κ}
    (h : k ∉ keys l) : lookup l k = 0 := by
  induction l with
  | nil => rfl
  | cons p rest ih =>
    simp only [keys, List.map_cons, List.mem_cons, not_or] at h
    rw [lookup, if_neg (fun hk => h.1 hk.symm)]
    exact ih h.2

theorem lookup_bump_self {κ : Type} [DecidableEq κ] (l : List (κ × Int)) (k : κ) (v : Int) :
    lookup (bump l k v) k = lookup l k + v := by
  induction l with
  | nil => simp [bump, lookup]
  | cons p rest ih =>
    obtain ⟨pk, pv⟩ := p
    by_cases hp : pk = k
    · subst hp
      rw [bump_cons_eq, lookup, lookup, if_pos rfl, if_pos rfl]
    · rw [bump_cons_ne hp, lookup, lookup, if_neg hp, if_neg hp, ih]

theorem lookup_bump_ne {κ : Type} [DecidableEq κ] (l : List (κ × Int)) {j k : κ} (v : Int)
    (h : j ≠ k) : lookup (bump l k v) j = lookup l j := by
  induction l with
  | nil => simp [bump, lookup, Ne.symm h]
  | cons p rest ih =>
    obtain ⟨pk, pv⟩ := p
    by_cases hp : pk = k
    · subst hp
      rw [bump_cons_eq, lookup, lookup, if_neg (Ne.symm h), if_neg (Ne.symm h)]
    · rw [bump_cons_ne hp, lookup, lookup, ih]

theorem mem_keys_bump {κ : Type} [DecidableEq κ] (l : List (κ × Int)) (k : κ) (v : Int)
    (j : κ) : j ∈ keys (bump l k v) ↔ j ∈ keys l ∨ j = k := by
  induction l with
  | nil => simp [bump, keys]
  | cons p rest ih =>
    obtain ⟨pk, pv⟩ := p
    by_cases hp : pk = k
    · subst hp
      rw [bump_cons_eq]
      simp only [keys, List.map_cons, List.mem_cons]
      tauto
    · rw [bump_cons_ne hp]
      simp only [keys, List.map_cons, List.mem_cons] at ih ⊢
      rw [ih]
      tauto

theorem nodup_keys_bump {κ : Type} [DecidableEq κ] {l : List (κ × Int)} (k : κ) (v : Int)
    (h : (keys l).Nodup) : (keys (bump l k v)).Nodup := by
  induction l with
  | nil => simp [bump, keys]
  | cons p rest ih =>
    obtain ⟨pk, pv⟩ := p
    rw [keys, List.map_cons, List.nodup_cons] at h
    by_cases hp : pk = k
    · subst hp
      rw [bump_cons_eq]
      simp only [keys, List.map_cons, List.nodup_cons]
      exact ⟨h.1, h.2⟩
    · rw [bump_cons_ne hp]
      simp only [keys, List.map_cons, List.nodup_cons]
      refine ⟨fun hmem => ?_, ih h.2⟩
      rcases (mem_keys_bump rest k v pk).mp hmem with hm | hm
      · exact h.1 hm
      · exact hp hm

theorem sumVals_bump {κ : Type} [DecidableEq κ] (l : List (κ × Int)) (k : κ) (v : Int) :
    sumVals (bump l k v) = sumVals l + v := by
  induction l with
  | nil => simp [bump, sumVals]
  | cons p rest ih =>
    obtain ⟨pk, pv⟩ := p
    by_cases hp : pk = k
    · subst hp
      rw [bump_cons_eq]
      simp only [sumVals, List.map_cons, List.sum_cons]
      ring
    · rw [bump_cons_ne hp]
      simp only [sumVals, List.map_cons, List.sum_cons] at ih ⊢
      rw [ih]
      ring

/-- The week-bucket filter sum rewritten as a sum of guarded entry values. -/
theorem weekSum_eq_ite_sum (l : List (Int × Int)) (k : Int × Int) :
    weekSum l k = (l.map (fun p => if isocalendar p.1 = k then p.2 else 0)).sum := by
  induction l with
  | nil => rfl
  | cons p rest ih =>
    by_cases h : isocalendar p.1 = k
    · simp only [weekSum, List.filter_cons, h, decide_True, if_true, List.map_cons,
        List.sum_cons, if_pos h] at ih ⊢
      rw [← ih]
    · simp only [weekSum, List.filter_cons, h, decide_False, Bool.false_eq_true,
        if_false, List.map_cons, List.sum_cons, if_neg h] at ih ⊢
      rw [← ih]
      ring

theorem weekSum_bump (l : List (Int × Int)) (d v : Int) (k : Int × Int) :
    weekSum (bump l d v) k = weekSum l k + (if isocalendar d = k then v else 0) := by
  rw [weekSum_eq_ite_sum, weekSum_eq_ite_sum]
  induction l with
  | nil => by_cases h : isocalendar d = k <;> simp [bump, h]
  | cons p rest ih =>
    obtain ⟨pk, pv⟩ := p
    by_cases hp : pk = d
    · subst hp
      rw [bump_cons_eq]
      simp only [List.map_cons, List.sum_cons]
      by_cases h : isocalendar pk = k
      · simp only [if_pos h]
        ring
      · simp only [if_neg h]
        ring
    · rw [bump_cons_ne hp]
      simp only [List.map_cons, List.sum_cons]
      rw [ih]
      ring

/-! ### Sums over key lists -/

theorem sum_map_eq_zero {α : Type} (u : List α) (f : α → Int)
    (h : ∀ x ∈ u, f x = 0) : (u.map f).sum = 0 := by
  induction u with
  | nil => rfl
  | cons x rest ih =>
    simp only [List.map_cons, List.sum_cons, h x (List.mem_cons_self x rest)]
    rw [ih (fun y hy => h y (List.mem_cons_of_mem x hy))]
    ring

theorem sum_map_add {α : Type} (u : List α) (f g : α → Int) :
    (u.map (fun x => f x + g x)).sum = (u.map f).sum + (u.map g).sum := by
  induction u with
  | nil => rfl
  | cons x rest ih =>
    simp only [List.map_cons, List.sum_cons, ih]
    ring

/-- Summing a function over a nodup list `u` equals summing it over a nodup
sublist `v` of it, provided the function vanishes on `u \ v`. -/
theorem sum_map_nodup_super {κ : Type} [DecidableEq κ] (g : κ → Int) (v : List κ) :
    ∀ u : List κ, v.Nodup → u.Nodup → (∀ k, k ∈ v → k ∈ u) →
      (∀ k, k ∈ u → k ∉ v → g k = 0) → (u.map g).sum = (v.map g).sum := by
  induction v with
  | nil =>
    intro u _ _ _ hz
    rw [sum_map_eq_zero u g (fun x hx => hz x hx (List.not_mem_nil x))]
    rfl
  | cons k v ih =>
    intro u hv hu hsub hz
    have hku : k ∈ u := hsub k (List.mem_cons_self k v)
    have hperm : List.Perm u (k :: u.erase k) := List.perm_cons_erase hku
    rw [(hperm.map g).sum_eq]
    have hnodup : (k :: u.erase k).Nodup := (hperm.nodup_iff).mp hu
    rw [List.nodup_cons] at hnodup
    rw [List.nodup_cons] at hv
    simp only [List.map_cons, List.sum_cons]
    have hrec := ih (u.erase k) hv.2 hnodup.2
      (fun j hj => by
        have hne : j ≠ k := fun hjk => hv.1 (hjk ▸ hj)
        exact (List.mem_erase_of_ne hne).mpr (hsub j (List.mem_cons_of_mem k hj)))
      (fun j hj hnj => by
        have hju : j ∈ u := List.mem_of_mem_erase hj
        have hjk : j ≠ k := fun hjk => hnodup.1 (hjk ▸ hj)
        exact hz j hju (by simp [hjk, hnj]))
    rw [hrec]

/-- Summing an entry-wise weight over the key list of a nodup-keyed bucket
mapping equals summing it over the entries. -/
theorem keys_entry_sum {κ : Type} [DecidableEq κ] (f : κ → Int → Int) :
    ∀ l : List (κ × Int), (keys l).Nodup →
      ((keys l).map (fun d => f d (lookup l d))).sum
        = (l.map (fun p => f p.1 p.2)).sum := by
  intro l
  induction l with
  | nil => intro _; rfl
  | cons p rest ih =>
    intro h
    rw [keys, List.map_cons, List.nodup_cons] at h
    have htail : (List.map Prod.fst rest).map
        (fun d => f d (lookup (p :: rest) d))
        = (List.map Prod.fst rest).map (fun d => f d (lookup rest d)) := by
      apply List.map_congr_left
      intro x hx
      rw [lookup, if_neg (fun hpx : p.1 = x => h.1 (hpx ▸ hx))]
    have ihr := ih h.2
    simp only [keys] at ihr
    rw [keys, List.map_cons, List.map_cons, List.sum_cons, List.map_cons,
      List.sum_cons, htail, ihr]
    rw [lookup, if_pos rfl]

theorem keys_lookup_sum {κ : Type} [DecidableEq κ] (l : List (κ × Int))
    (h : (keys l).Nodup) : ((keys l).map (lookup l)).sum = sumVals l := by
  have := keys_entry_sum (fun _ x => x) l h
  simpa [sumVals] using this

theorem keys_ite_sum (l : List (Int × Int)) (h : (keys l).Nodup) (k : Int × Int) :
    ((keys l).map (fun d => if isocalendar d = k then lookup l d else 0)).sum
      = weekSum l k := by
  have := keys_entry_sum (fun d x => if isocalendar d = k then x else 0) l h
  rw [weekSum_eq_ite_sum]
  exact this

/-! ### Merge lemmas -/

theorem lookup_map_pair {κ : Type} [DecidableEq κ] (u : List κ) (f : κ → Int) (k : κ) :
    lookup (u.map (fun x => (x, f x))) k = if k ∈ u then f k else 0 := by
  induction u with
  | nil => simp [lookup]
  | cons x rest ih =>
    by_cases hx : x = k
    · subst hx
      simp [lookup]
    · simp only [List.map_cons, lookup, if_neg hx, ih, List.mem_cons]
      by_cases hk : k ∈ rest
      · rw [if_pos hk, if_pos (Or.inr hk)]
      · rw [if_neg hk, if_neg (by rintro (h | h); exacts [hx h.symm, hk h])]

theorem keys_map_pair {κ : Type} (u : List κ) (f : κ → Int) :
    keys (u.map (fun x => (x, f x))) = u := by
  induction u with
  | nil => rfl
  | cons x rest ih => simp only [List.map_cons, keys, List.map_cons] at ih ⊢; rw [ih]

theorem sumVals_map_pair {κ : Type} (u : List κ) (f : κ → Int) :
    sumVals (u.map (fun x => (x, f x))) = (u.map f).sum := by
  induction u with
  | nil => rfl
  | cons x rest ih =>
    simp only [List.map_cons, sumVals, List.map_cons, List.sum_cons] at ih ⊢
    rw [ih]

theorem weekSum_map_pair (u : List Int) (f : Int → Int) (k : Int × Int) :
    weekSum (u.map (fun x => (x, f x))) k
      = (u.map (fun d => if isocalendar d = k then f d else 0)).sum := by
  rw [weekSum_eq_ite_sum]
  induction u with
  | nil => rfl
  | cons x rest ih =>
    simp only [List.map_cons, List.sum_cons] at ih ⊢
    rw [ih]

theorem mem_unionKeys {κ : Type} [DecidableEq κ] (a b : List (κ × Int)) (k : κ) :
    k ∈ unionKeys a b ↔ k ∈ keys a ∨ k ∈ keys b := by
  simp only [unionKeys, List.mem_append, List.mem_filter, decide_eq_true_eq]
  constructor
  · rintro (h | ⟨h, _⟩)
    · exact Or.inl h
    · exact Or.inr h
  · rintro (h | h)
    · exact Or.inl h
    · by_cases ha : k ∈ keys a
      · exact Or.inl ha
      · exact Or.inr ⟨h, ha⟩

theorem nodup_unionKeys {κ : Type} [DecidableEq κ] {a b : List (κ × Int)}
    (ha : (keys a).Nodup) (hb : (keys b).Nodup) : (unionKeys a b).Nodup := by
  refine List.Nodup.append ha (hb.filter _) ?_
  intro k hka hkb
  rcases List.mem_filter.mp hkb with ⟨_, hdec⟩
  exact (of_decide_eq_true hdec) hka

theorem lookup_mergeBuckets {κ : Type} [DecidableEq κ] (a b : List (κ × Int)) (k : κ) :
    lookup (mergeBuckets a b) k = lookup a k + lookup b k := by
  rw [mergeBuckets, lookup_map_pair]
  by_cases h : k ∈ unionKeys a b
  · rw [if_pos h]
  · rw [if_neg h]
    rw [mem_unionKeys, not_or] at h
    rw [lookup_eq_zero h.1, lookup_eq_zero h.2]
    ring

theorem keys_mergeBuckets {κ : Type} [DecidableEq κ] (a b : List (κ × Int)) :
    keys (mergeBuckets a b) = unionKeys a b := by
  rw [mergeBuckets, keys_map_pair]

theorem mem_keys_mergeBuckets {κ : Type} [DecidableEq κ] (a b : List (κ × Int)) (k : κ) :
    k ∈ keys (mergeBuckets a b) ↔ k ∈ keys a ∨ k ∈ keys b := by
  rw [keys_mergeBuckets, mem_unionKeys]

theorem nodup_keys_mergeBuckets {κ : Type} [DecidableEq κ] {a b : List (κ × Int)}
    (ha : (keys a).Nodup) (hb : (keys b).Nodup) : (keys (mergeBuckets a b)).Nodup := by
  rw [keys_mergeBuckets]
  exact nodup_unionKeys ha hb

theorem sumVals_mergeBuckets {κ : Type} [DecidableEq κ] {a b : List (κ × Int)}
    (ha : (keys a).Nodup) (hb : (keys b).Nodup) :
    sumVals (mergeBuckets a b) = sumVals a + sumVals b := by
  rw [mergeBuckets, sumVals_map_pair, sum_map_add]
  have hu : (unionKeys a b).Nodup := nodup_unionKeys ha hb
  have hsa : ((unionKeys a b).map (lookup a)).sum = ((keys a).map (lookup a)).sum :=
    sum_map_nodup_super (lookup a) (keys a) (unionKeys a b) ha hu
      (fun k hk => (mem_unionKeys a b k).mpr (Or.inl hk))
      (fun k _ hk => lookup_eq_zero hk)
  have hsb : ((unionKeys a b).map (lookup b)).sum = ((keys b).map (lookup b)).sum :=
    sum_map_nodup_super (lookup b) (keys b) (unionKeys a b) hb hu
      (fun k hk => (mem_unionKeys a b k).mpr (Or.inr hk))
      (fun k _ hk => lookup_eq_zero hk)
  rw [hsa, hsb, keys_lookup_sum a ha, keys_lookup_sum b hb]

theorem weekSum_mergeBuckets {a b : List (Int × Int)}
    (ha : (keys a).Nodup) (hb : (keys b).Nodup) (k : Int × Int) :
    weekSum (mergeBuckets a b) k = weekSum a k + weekSum b k := by
  rw [mergeBuckets, weekSum_map_pair]
  have hsplit : ∀ d ∈ unionKeys a b,
      (fun d => if isocalendar d = k then lookup a d + lookup b d else 0) d
        = (fun d => (if isocalendar d = k then lookup a d else 0)
            + (if isocalendar d = k then lookup b d else 0)) d := by
    intro d _
    by_cases h : isocalendar d = k <;> simp [h]
  rw [List.map_congr_left hsplit, sum_map_add]
  have hu : (unionKeys a b).Nodup := nodup_unionKeys ha hb
  have hsa := sum_map_nodup_super (fun d => if isocalendar d = k then lookup a d else 0)
    (keys a) (unionKeys a b) ha hu
    (fun j hj => (mem_unionKeys a b j).mpr (Or.inl hj))
    (fun j _ hj => by
      show (if isocalendar j = k then lookup a j else 0) = 0
      rw [lookup_eq_zero hj, ite_self])
  have hsb := sum_map_nodup_super (fun d => if isocalendar d = k then lookup b d else 0)
    (keys b) (unionKeys a b) hb hu
    (fun j hj => (mem_unionKeys a b j).mpr (Or.inr hj))
    (fun j _ hj => by
      show (if isocalendar j = k then lookup b j else 0) = 0
      rw [lookup_eq_zero hj, ite_self])
  rw [hsa, hsb, keys_ite_sum a ha k, keys_ite_sum b hb k]

/-! ### The bucket-consistency invariant -/

/-- The internal invariant of a `TimeDistribution`: both bucket mappings
have no duplicate keys, the total equals the sum of each bucket mapping,
and each week bucket is the sum of the matching day buckets. -/
def Inv (t : TimeDistribution) : Prop :=
  (keys t.days).Nodup ∧ (keys t.weeks).Nodup ∧
  t.total = sumVals t.days ∧ t.total = sumVals t.weeks ∧
  ∀ k, lookup t.weeks k = weekSum t.days k

theorem Inv_init : Inv TimeDistribution.init := by
  refine ⟨List.nodup_nil, List.nodup_nil, rfl, rfl, fun k => rfl⟩

theorem Inv_addToDay {t : TimeDistribution} (h : Inv t) (d v : Int) :
    Inv (t.addToDay d v) := by
  obtain ⟨h1, h2, h3, h4, h5⟩ := h
  refine ⟨nodup_keys_bump d v h1, nodup_keys_bump (isocalendar d) v h2, ?_, ?_, ?_⟩
  · show t.total + v = sumVals (bump t.days d v)
    rw [sumVals_bump, h3]
  · show t.total + v = sumVals (bump t.weeks (isocalendar d) v)
    rw [sumVals_bump, h4]
  · intro k
    show lookup (bump t.weeks (isocalendar d) v) k = weekSum (bump t.days d v) k
    rw [weekSum_bump]
    by_cases hk : isocalendar d = k
    · subst hk
      rw [lookup_bump_self, h5 (isocalendar d), if_pos rfl]
    · rw [lookup_bump_ne t.weeks v (fun hj => hk hj.symm), if_neg hk, h5 k]
      ring

theorem Inv_foldl_addToDay (ds : List Nat) (base : Int) :
    ∀ t : TimeDistribution, Inv t →
      Inv (ds.foldl (fun acc (d : Nat) => acc.addToDay (base + (d : Int)) 86400) t) := by
  induction ds with
  | nil => intro t h; exact h
  | cons d ds ih =>
    intro t h
    exact ih _ (Inv_addToDay h _ _)

theorem Inv_add {t : TimeDistribution} (h : Inv t) (s e : Int) : Inv (t.add s e) := by
  rw [TimeDistribution.add]
  dsimp only
  by_cases hc : e > (s - t.splithour * 3600) / 86400 * 86400 + 86400
      + t.splithour * 3600
  · rw [if_pos hc]
    exact Inv_addToDay (Inv_foldl_addToDay _ _ _ (Inv_addToDay h _ _)) _ _
  · rw [if_neg hc]
    exact Inv_addToDay h _ _

theorem Inv_merge {a b : TimeDistribution} (ha : Inv a) (hb : Inv b) :
    Inv (a.merge b) := by
  obtain ⟨a1, a2, a3, a4, a5⟩ := ha
  obtain ⟨b1, b2, b3, b4, b5⟩ := hb
  refine ⟨nodup_keys_mergeBuckets a1 b1, nodup_keys_mergeBuckets a2 b2, ?_, ?_, ?_⟩
  · show a.total + b.total = sumVals (mergeBuckets a.days b.days)
    rw [sumVals_mergeBuckets a1 b1, a3, b3]
  · show a.total + b.total = sumVals (mergeBuckets a.weeks b.weeks)
    rw [sumVals_mergeBuckets a2 b2, a4, b4]
  · intro k
    show lookup (mergeBuckets a.weeks b.weeks) k = weekSum (mergeBuckets a.days b.days) k
    rw [lookup_mergeBuckets, weekSum_mergeBuckets a1 b1, a5 k, b5 k]

theorem Reachable.inv {t : TimeDistribution} (h : Reachable t) : Inv t := by
  induction h with
  | empty => exact Inv_init
  | add t s e _ _ ih => exact Inv_add ih s e
  | merge a b _ _ iha ihb => exact Inv_merge iha ihb

/-! ### Positivity of stored buckets -/

/-- Every stored entry of a bucket mapping is strictly positive. -/
def PosBuckets {κ : Type} [DecidableEq κ] (l : List (κ × Int)) : Prop :=
  ∀ k, k ∈ keys l → 0 < lookup l k

theorem lookup_nonneg {κ : Type} [DecidableEq κ] {l : List (κ × Int)}
    (h : PosBuckets l) (k : κ) : 0 ≤ lookup l k := by
  by_cases hk : k ∈ keys l
  · exact le_of_lt (h k hk)
  · rw [lookup_eq_zero hk]

theorem PosBuckets_bump {κ : Type} [DecidableEq κ] {l : List (κ × Int)} {v : Int}
    (h : PosBuckets l) (d : κ) (hv : 0 < v) : PosBuckets (bump l d v) := by
  intro k hk
  by_cases hkd : k = d
  · subst hkd
    rw [lookup_bump_self]
    have := lookup_nonneg h k
    omega
  · rw [lookup_bump_ne l v hkd]
    rcases (mem_keys_bump l d v k).mp hk with hm | hm
    · exact h k hm
    · exact absurd hm hkd

theorem PosBuckets_mergeBuckets {κ : Type} [DecidableEq κ] {a b : List (κ × Int)}
    (ha : PosBuckets a) (hb : PosBuckets b) : PosBuckets (mergeBuckets a b) := by
  intro k hk
  rw [lookup_mergeBuckets]
  rcases (mem_keys_mergeBuckets a b k).mp hk with h | h
  · have h1 := ha k h
    have h2 := lookup_nonneg hb k
    omega
  · have h1 := hb k h
    have h2 := lookup_nonneg ha k
    omega

/-- The split hour is the default 4 and all stored buckets are strictly
positive. -/
def PosDist (t : TimeDistribution) : Prop :=
  t.splithour = 4 ∧ PosBuckets t.days ∧ PosBuckets t.weeks

theorem PosDist_init : PosDist TimeDistribution.init :=
  ⟨rfl, fun k hk => absurd hk (List.not_mem_nil k),
    fun k hk => absurd hk (List.not_mem_nil k)⟩

theorem PosDist_addToDay {t : TimeDistribution} (h : PosDist t) (d : Int) {v : Int}
    (hv : 0 < v) : PosDist (t.addToDay d v) :=
  ⟨h.1, PosBuckets_bump h.2.1 d hv, PosBuckets_bump h.2.2 (isocalendar d) hv⟩

theorem PosDist_foldl_addToDay (ds : List Nat) (base : Int) :
    ∀ t : TimeDistribution, PosDist t →
      PosDist (ds.foldl (fun acc (d : Nat) => acc.addToDay (base + (d : Int)) 86400) t) := by
  induction ds with
  | nil => intro t h; exact h
  | cons d ds ih =>
    intro t h
    exact ih _ (PosDist_addToDay h _ (by norm_num))

/-- With the default split hour, adding a strictly positive interval only
adds strictly positive day contributions: the first partial day ends at a
boundary strictly after `s`, middle days contribute 24 h, and the last
partial day starts at least `splithour` hours before `e`. -/
theorem PosDist_add {t : TimeDistribution} (h : PosDist t) {s e : Int} (hse : s < e) :
    PosDist (t.add s e) := by
  rw [TimeDistribution.add, h.1]
  dsimp only
  by_cases hc : e > (s - 4 * 3600) / 86400 * 86400 + 86400 + 4 * 3600
  · rw [if_pos hc]
    refine PosDist_addToDay (PosDist_foldl_addToDay _ _ _ (PosDist_addToDay h _ ?_)) _ ?_
    · omega
    · omega
  · rw [if_neg hc]
    exact PosDist_addToDay h _ (by omega)

theorem PosDist_merge {a b : TimeDistribution} (ha : PosDist a) (hb : PosDist b) :
    PosDist (a.merge b) :=
  ⟨rfl, PosBuckets_mergeBuckets ha.2.1 hb.2.1, PosBuckets_mergeBuckets ha.2.2 hb.2.2⟩

theorem ReachablePos.posDist {t : TimeDistribution} (h : ReachablePos t) : PosDist t := by
  induction h with
  | empty => exact PosDist_init
  | add t s e _ hse ih => exact PosDist_add ih hse
  | merge a b _ _ iha ihb => exact PosDist_merge iha ihb

/-! ### Extractor step lemmas -/

theorem parse_skip_ne {s : List Char} {x : Option (List Char) × Option (List Char)}
    (hp : parse_status s = some x) :
    ¬(s = "created".data ∨ s = "commented".data) := by
  have h1 : parse_status "created".data = none := by decide
  have h2 : parse_status "commented".data = none := by decide
  rintro (rfl | rfl)
  · rw [h1] at hp
    exact Option.noConfusion hp
  · rw [h2] at hp
    exact Option.noConfusion hp

/-- Processing a `→in_progress` event: the filter decides whether the start
variable is overwritten; no interval is emitted either way. -/
theorem extractAux_activation (el ll : Option Int) (ev : LogEvent) (rest : List LogEvent)
    (st0 : Option Int) (f : Option (List Char))
    (hp : parse_status ev.status = some (f, some "in_progress".data)) :
    extractAux el ll (ev :: rest) st0 =
      extractAux el ll rest
        (if filtered el ll ev.timestamp then st0 else some ev.timestamp) := by
  have hskip := parse_skip_ne hp
  simp only [extractAux, if_neg hskip, hp, if_pos rfl, eq_self_iff_true, if_true]

/-- Processing a `paused`/`fixed` terminator while Active: the interval is
emitted unconditionally (no filter applies) and the state returns to
Idle. -/
theorem extractAux_terminator (el ll : Option Int) (ev : LogEvent) (rest : List LogEvent)
    (s : Int) (f : Option (List Char)) (w : List Char)
    (hp : parse_status ev.status = some (f, some w))
    (hw : w = "paused".data ∨ w = "fixed".data) :
    extractAux el ll (ev :: rest) (some s) =
      (extractAux el ll rest none).map (fun r => ((s, ev.timestamp) :: r.1, r.2)) := by
  have hskip := parse_skip_ne hp
  have hnip : ¬(some w = some "in_progress".data) := by
    rcases hw with rfl | rfl <;> exact fun hc => absurd (Option.some.inj hc) (by decide)
  have hterm : some w = some "paused".data ∨ some w = some "fixed".data := by
    rcases hw with rfl | rfl
    · exact Or.inl rfl
    · exact Or.inr rfl
  simp only [extractAux, if_neg hskip, hp, if_neg hnip, if_pos hterm]

/-- Processing a `paused`/`fixed` terminator while Idle: nothing is
emitted. -/
theorem extractAux_terminator_idle (el ll : Option Int) (ev : LogEvent)
    (rest : List LogEvent) (f : Option (List Char)) (w : List Char)
    (hp : parse_status ev.status = some (f, some w))
    (hw : w = "paused".data ∨ w = "fixed".data) :
    extractAux el ll (ev :: rest) none = extractAux el ll rest none := by
  have hskip := parse_skip_ne hp
  have hnip : ¬(some w = some "in_progress".data) := by
    rcases hw with rfl | rfl <;> exact fun hc => absurd (Option.some.inj hc) (by decide)
  have hterm : some w = some "paused".data ∨ some w = some "fixed".data := by
    rcases hw with rfl | rfl
    · exact Or.inl rfl
    · exact Or.inr rfl
  simp only [extractAux, if_neg hskip, hp, if_neg hnip, if_pos hterm]

/-- Processing an event whose parsed `to`-status is none of `in_progress`,
`paused`, `fixed` (and is not absent) raises
`ValueError('Unknown status ...')`. -/
theorem extractAux_unknown (el ll : Option Int) (ev : LogEvent) (rest : List LogEvent)
    (st0 : Option Int) (f : Option (List Char)) (u : List Char)
    (hp : parse_status ev.status = some (f, some u))
    (h1 : u ≠ "in_progress".data) (h2 : u ≠ "paused".data) (h3 : u ≠ "fixed".data) :
    extractAux el ll (ev :: rest) st0 = .error (.unknownStatus u) := by
  have hskip := parse_skip_ne hp
  have hnip : ¬(some u = some "in_progress".data) :=
    fun hc => h1 (Option.some.inj hc)
  have hnterm : ¬(some u = some "paused".data ∨ some u = some "fixed".data) := by
    rintro (hc | hc)
    · exact h2 (Option.some.inj hc)
    · exact h3 (Option.some.inj hc)
  simp only [extractAux, if_neg hskip, hp, if_neg hnip, if_neg hnterm]

/-- Every interval emitted by the extractor ends at the timestamp of a
`paused`/`fixed` terminator event of the input. -/
theorem extractAux_intervals_from_terminators (el ll : Option Int) :
    ∀ (evs : List LogEvent) (st0 : Option Int) (ivs : List (Int × Int)) (st : Option Int),
      extractAux el ll evs st0 = .ok (ivs, st) →
      ∀ iv, iv ∈ ivs → ∃ ev, ev ∈ evs ∧ iv.2 = ev.timestamp ∧
        ∃ f w, parse_status ev.status = some (f, some w) ∧
          (w = "paused".data ∨ w = "fixed".data) := by
  intro evs
  induction evs with
  | nil =>
    intro st0 ivs st h iv hiv
    simp only [extractAux, Except.ok.injEq, Prod.mk.injEq] at h
    rw [← h.1] at hiv
    exact absurd hiv (List.not_mem_nil iv)
  | cons ev rest ih =>
    intro st0 ivs st h iv hiv
    simp only [extractAux] at h
    split at h
    · obtain ⟨e, he, hrest⟩ := ih st0 ivs st h iv hiv
      exact ⟨e, List.mem_cons_of_mem _ he, hrest⟩
    · split at h
      · exact absurd h (by simp)
      · rename_i stp hps
        split at h
        · obtain ⟨e, he, hrest⟩ := ih _ ivs st h iv hiv
          exact ⟨e, List.mem_cons_of_mem _ he, hrest⟩
        · split at h
          · rename_i hip hterm
            split at h
            · rename_i s0
              cases hrec : extractAux el ll rest none with
              | error err =>
                rw [hrec] at h
                exact absurd h (by simp [Except.map])
              | ok r =>
                rw [hrec] at h
                simp only [Except.map, Except.ok.injEq, Prod.mk.injEq] at h
                rw [← h.1] at hiv
                rcases List.mem_cons.mp hiv with hiveq | hivmem
                · refine ⟨ev, List.mem_cons_self ev rest, by rw [hiveq], stp.1, ?_⟩
                  rcases hterm with hpa | hfx
                  · exact ⟨"paused".data,
                      by rw [hps]; exact congrArg some ((Prod.ext_iff).mpr ⟨rfl, hpa⟩),
                      Or.inl rfl⟩
                  · exact ⟨"fixed".data,
                      by rw [hps]; exact congrArg some ((Prod.ext_iff).mpr ⟨rfl, hfx⟩),
                      Or.inr rfl⟩
                · obtain ⟨e, he, hrest⟩ := ih none r.1 r.2 hrec iv hivmem
                  exact ⟨e, List.mem_cons_of_mem _ he, hrest⟩
            · obtain ⟨e, he, hrest⟩ := ih none ivs st h iv hiv
              exact ⟨e, List.mem_cons_of_mem _ he, hrest⟩
          · split at h
            · exact absurd h (by simp)
            · obtain ⟨e, he, hrest⟩ := ih st0 ivs st h iv hiv
              exact ⟨e, List.mem_cons_of_mem _ he, hrest⟩
/-! ### Claim theorems -/

theorem merge_days_lookup (a b : TimeDistribution) (k : Int) :
    lookup (a.merge b).days k = lookup a.days k + lookup b.days k :=
  lookup_mergeBuckets a.days b.days k

theorem merge_weeks_lookup (a b : TimeDistribution) (k : Int × Int) :
    lookup (a.merge b).weeks k = lookup a.weeks k + lookup b.weeks k :=
  lookup_mergeBuckets a.weeks b.weeks k

/-- C1 counterexample: adding the interval 2008-12-15 03:45 → 2008-12-23
05:15 to a fresh `TimeDistribution(splithour=4)` produces exactly the
claimed day buckets (15 min on 2008-12-14, 24 h on each of 2008-12-15
through 2008-12-22, 5 h 15 min on 2008-12-23), but the resulting total is
8 days 5 h 30 min (711000 s), not the claimed 8 days 7 h (716400 s): the
claimed total is the doctest value, which also contains a previously added
1.5 h interval. -/
theorem claim_C1_counterexample :
    ((TimeDistribution.init.add (mkDT 2008 12 15 3 45) (mkDT 2008 12 23 5 15)).days
        = [(daysFromCivil 2008 12 14, 900), (daysFromCivil 2008 12 15, 86400),
           (daysFromCivil 2008 12 16, 86400), (daysFromCivil 2008 12 17, 86400),
           (daysFromCivil 2008 12 18, 86400), (daysFromCivil 2008 12 19, 86400),
           (daysFromCivil 2008 12 20, 86400), (daysFromCivil 2008 12 21, 86400),
           (daysFromCivil 2008 12 22, 86400), (daysFromCivil 2008 12 23, 18900)])
    ∧ ¬((TimeDistribution.init.add (mkDT 2008 12 15 3 45) (mkDT 2008 12 23 5 15)).total
        = 8 * 86400 + 7 * 3600) := by
  refine ⟨by decide, by decide⟩

/-- C1 (amended): adding the interval from 2008-12-15 03:45 to 2008-12-23
05:15 to the empty `TimeDistribution` with splithour 4 produces exactly the
day buckets 2008-12-14 = 15 minutes, 2008-12-15 through 2008-12-22 = 24
hours each, 2008-12-23 = 5 hours 15 minutes, and a total of 8 days 5 hours
30 minutes. -/
theorem claim_C1 :
    ((TimeDistribution.init.add (mkDT 2008 12 15 3 45) (mkDT 2008 12 23 5 15)).days
        = [(daysFromCivil 2008 12 14, 900), (daysFromCivil 2008 12 15, 86400),
           (daysFromCivil 2008 12 16, 86400), (daysFromCivil 2008 12 17, 86400),
           (daysFromCivil 2008 12 18, 86400), (daysFromCivil 2008 12 19, 86400),
           (daysFromCivil 2008 12 20, 86400), (daysFromCivil 2008 12 21, 86400),
           (daysFromCivil 2008 12 22, 86400), (daysFromCivil 2008 12 23, 18900)])
    ∧ (TimeDistribution.init.add (mkDT 2008 12 15 3 45) (mkDT 2008 12 23 5 15)).total
        = 8 * 86400 + 5 * 3600 + 30 * 60 := by
  refine ⟨by decide, by decide⟩

/-- C2: `__add__` produces the key-wise sums over the union of keys of the
day buckets, week buckets, and the sum of totals; it is commutative and
associative on day buckets, week buckets and totals, and the empty
distribution is an identity for it. -/
theorem claim_C2 :
    (∀ a b : TimeDistribution, ∀ k,
      lookup (a.merge b).days k = lookup a.days k + lookup b.days k) ∧
    (∀ a b : TimeDistribution, ∀ k,
      lookup (a.merge b).weeks k = lookup a.weeks k + lookup b.weeks k) ∧
    (∀ a b : TimeDistribution, (a.merge b).total = a.total + b.total) ∧
    (∀ a b : TimeDistribution, ∀ k,
      k ∈ keys (a.merge b).days ↔ k ∈ keys a.days ∨ k ∈ keys b.days) ∧
    (∀ a b : TimeDistribution, ∀ k,
      k ∈ keys (a.merge b).weeks ↔ k ∈ keys a.weeks ∨ k ∈ keys b.weeks) ∧
    (∀ a b : TimeDistribution, ∀ k,
      lookup (a.merge b).days k = lookup (b.merge a).days k) ∧
    (∀ a b : TimeDistribution, ∀ k,
      lookup (a.merge b).weeks k = lookup (b.merge a).weeks k) ∧
    (∀ a b : TimeDistribution, (a.merge b).total = (b.merge a).total) ∧
    (∀ a b c : TimeDistribution, ∀ k,
      lookup ((a.merge b).merge c).days k = lookup (a.merge (b.merge c)).days k) ∧
    (∀ a b c : TimeDistribution, ∀ k,
      lookup ((a.merge b).merge c).weeks k = lookup (a.merge (b.merge c)).weeks k) ∧
    (∀ a b c : TimeDistribution,
      ((a.merge b).merge c).total = (a.merge (b.merge c)).total) ∧
    (∀ a : TimeDistribution, ∀ k,
      lookup (a.merge TimeDistribution.init).days k = lookup a.days k) ∧
    (∀ a : TimeDistribution, ∀ k,
      lookup (a.merge TimeDistribution.init).weeks k = lookup a.weeks k) ∧
    (∀ a : TimeDistribution, (a.merge TimeDistribution.init).total = a.total) := by
  refine ⟨merge_days_lookup, merge_weeks_lookup, fun a b => rfl,
    fun a b k => mem_keys_mergeBuckets a.days b.days k,
    fun a b k => mem_keys_mergeBuckets a.weeks b.weeks k,
    ?_, ?_, ?_, ?_, ?_, ?_, ?_, ?_, ?_⟩
  · intro a b k
    rw [merge_days_lookup, merge_days_lookup]
    ring
  · intro a b k
    rw [merge_weeks_lookup, merge_weeks_lookup]
    ring
  · intro a b
    show a.total + b.total = b.total + a.total
    ring
  · intro a b c k
    rw [merge_days_lookup, merge_days_lookup, merge_days_lookup, merge_days_lookup]
    ring
  · intro a b c k
    rw [merge_weeks_lookup, merge_weeks_lookup, merge_weeks_lookup, merge_weeks_lookup]
    ring
  · intro a b c
    show a.total + b.total + c.total = a.total + (b.total + c.total)
    ring
  · intro a k
    rw [merge_days_lookup]
    show lookup a.days k + lookup [] k = lookup a.days k
    rw [lookup]
    ring
  · intro a k
    rw [merge_weeks_lookup]
    show lookup a.weeks k + lookup [] k = lookup a.weeks k
    rw [lookup]
    ring
  · intro a
    show a.total + 0 = a.total
    ring

/-- C7: the duration format always satisfies
`hours * 60 + minutes = round(total_seconds / 60)` (rounding halves away
from zero, as Python 2's `round` does on the non-negative values that
occur), and the two doctest renderings hold: 3535 s renders as `59'` and
1 day 154 s renders as `24h03'`. -/
theorem claim_C7 :
    (∀ t : Nat, hmHours t * 60 + hmMinutes t = (t + 30) / 60) ∧
    format_h_m 3535 = "59" ++ tick ∧
    format_h_m (86400 + 154) = "24h03" ++ tick := by
  refine ⟨fun t => by unfold hmHours hmMinutes; omega, by decide, by decide⟩

/-- C10: the distribution returned by `__add__` always has the default
split hour 4, whatever the operands were configured with, so a subsequent
`add` on the merged distribution splits at the 04:00 boundary: it behaves
exactly as `add` on the same buckets with `splithour = 4`. -/
theorem claim_C10 :
    (∀ a b : TimeDistribution, (a.merge b).splithour = 4) ∧
    (∀ a b : TimeDistribution, ∀ s e : Int,
      (a.merge b).add s e =
        TimeDistribution.add
          { splithour := 4, days := (a.merge b).days, weeks := (a.merge b).weeks,
            total := (a.merge b).total } s e) :=
  ⟨fun a b => rfl, fun a b s e => rfl⟩

/-- C3: on every distribution reachable from `TimeDistribution()` by `add`
(with start ≤ end) and `__add__`, the total equals the sum of the day
buckets and the sum of the week buckets, and each week bucket equals the
sum of the day buckets whose ISO (year, week) matches its key. -/
theorem claim_C3 (t : TimeDistribution) (h : Reachable t) :
    t.total = sumVals t.days ∧ t.total = sumVals t.weeks ∧
    ∀ k, lookup t.weeks k = weekSum t.days k := by
  obtain ⟨_, _, h3, h4, h5⟩ := h.inv
  exact ⟨h3, h4, h5⟩

theorem claim_C3_witness :
    (TimeDistribution.init.add 0 100000).total
      = sumVals (TimeDistribution.init.add 0 100000).days :=
  (claim_C3 _ (Reachable.add TimeDistribution.init 0 100000 Reachable.empty
    (by norm_num))).1

/-- C4: the earliest/latest filter applies only to `→in_progress` events: a
non-filtered activation overwrites the open start with its own timestamp, a
filtered activation leaves the state unchanged (Idle or Active alike), a
terminator closes an open interval at its own timestamp unconditionally,
and concretely the run `[→in_progress @10, →paused @100]` under
earliest = 5, latest = 50 still emits `[10, 100)` in full although
100 > latest. -/
theorem claim_C4 :
    (∀ (el ll : Option Int) (ev : LogEvent) (rest : List LogEvent) (st0 : Option Int)
        (f : Option (List Char)),
      parse_status ev.status = some (f, some "in_progress".data) →
      filtered el ll ev.timestamp = false →
      extractAux el ll (ev :: rest) st0 = extractAux el ll rest (some ev.timestamp)) ∧
    (∀ (el ll : Option Int) (ev : LogEvent) (rest : List LogEvent) (st0 : Option Int)
        (f : Option (List Char)),
      parse_status ev.status = some (f, some "in_progress".data) →
      filtered el ll ev.timestamp = true →
      extractAux el ll (ev :: rest) st0 = extractAux el ll rest st0) ∧
    (∀ (el ll : Option Int) (ev : LogEvent) (rest : List LogEvent) (s : Int)
        (f : Option (List Char)) (w : List Char),
      parse_status ev.status = some (f, some w) →
      (w = "paused".data ∨ w = "fixed".data) →
      extractAux el ll (ev :: rest) (some s) =
        (extractAux el ll rest none).map (fun r => ((s, ev.timestamp) :: r.1, r.2))) ∧
    extract (some 5) (some 50) [activationEvent 10, pauseEvent 100]
      = .ok ([(10, 100)], none) := by
  refine ⟨?_, ?_, extractAux_terminator, by decide⟩
  · intro el ll ev rest st0 f hp hf
    rw [extractAux_activation el ll ev rest st0 f hp, hf]
    simp
  · intro el ll ev rest st0 f hp hf
    rw [extractAux_activation el ll ev rest st0 f hp, hf]
    simp

theorem claim_C4_witness :
    extractAux none none [activationEvent 10] none = extractAux none none [] (some 10) :=
  claim_C4.1 none none (activationEvent 10) [] none (some "unstarted".data)
    (by decide) (by decide)

/-- C5 counterexample: a close event with disposition `wontfix` while
Active does NOT emit the open interval — the extractor raises
`ValueError('Unknown status ...')` instead, refuting the claim that any
disposition terminates an open interval. -/
theorem claim_C5_counterexample : ¬claimC5Statement := fun h =>
  absurd (h none none (wontfixEvent 2) [] 1 "wontfix".data (by decide)) (by decide)

/-- C5 (amended): while Active, a close event with disposition `fixed`
emits the interval `[start, timestamp)` and returns to Idle; a close event
with any other disposition word (e.g. `wontfix`, `duplicate`) — more
precisely, any parsed `to`-status outside in_progress/paused/fixed — makes
extraction fail with `ValueError('Unknown status ...')` instead of
terminating the interval, as the concrete run
`[→in_progress @1, closed wontfix @2]` shows. -/
theorem claim_C5 :
    (∀ (el ll : Option Int) (ev : LogEvent) (rest : List LogEvent) (s : Int)
        (f : Option (List Char)),
      parse_status ev.status = some (f, some "fixed".data) →
      extractAux el ll (ev :: rest) (some s) =
        (extractAux el ll rest none).map (fun r => ((s, ev.timestamp) :: r.1, r.2))) ∧
    (∀ (el ll : Option Int) (ev : LogEvent) (rest : List LogEvent) (st0 : Option Int)
        (f : Option (List Char)) (u : List Char),
      parse_status ev.status = some (f, some u) →
      u ≠ "in_progress".data → u ≠ "paused".data → u ≠ "fixed".data →
      extractAux el ll (ev :: rest) st0 = .error (.unknownStatus u)) ∧
    extract none none [activationEvent 1, wontfixEvent 2]
      = .error (.unknownStatus "wontfix".data) := by
  refine ⟨?_, extractAux_unknown, by decide⟩
  intro el ll ev rest s f hp
  exact extractAux_terminator el ll ev rest s f "fixed".data hp (Or.inr rfl)

theorem claim_C5_witness :
    extractAux none none [fixedEvent 7] (some 3) =
      (extractAux none none [] none).map (fun r => ((3, 7) :: r.1, r.2)) :=
  claim_C5.1 none none (fixedEvent 7) [] 3 none (by decide)

/-- C6: `parse_status` fails exactly when none of the three prefix-anchored
patterns (Close, then Change, then Assign, in that precedence order)
matches; a Close match takes precedence and yields the disposition; the
Change pattern never accepts a `to`-state outside in_progress/paused; and
the message `changed status from unstarted to closed` is rejected. -/
theorem claim_C6 :
    (∀ s : List Char, parse_status s = none ↔
      (matchClose s = none ∧ matchChange s = none ∧
        startsWithL "assigned to release ".data s = false)) ∧
    (∀ (s d : List Char), matchClose s = some d →
      parse_status s = some (none, some d)) ∧
    (∀ (s a b : List Char), matchChange s = some (a, b) →
      b = "in_progress".data ∨ b = "paused".data) ∧
    parse_status "changed status from unstarted to closed".data = none := by
  refine ⟨?_, ?_, ?_, by decide⟩
  · intro s
    simp only [parse_status]
    cases hc : matchClose s with
    | some d => simp
    | none =>
      cases hm : matchChange s with
      | some ab => simp
      | none =>
        cases ha : startsWithL "assigned to release ".data s with
        | true => simp [ha]
        | false => simp [ha]
  · intro s d h
    simp only [parse_status, h]
  · intro s a b h
    simp only [matchChange] at h
    split at h
    · split at h
      · rename_i a0 hfind
        split at h
        · split at h
          · rename_i b0 hfind2
            have hb : b0 ∈ toStates := List.mem_of_find?_eq_some hfind2
            injection h with h'
            injection h' with h1 h2
            rw [← h2]
            simpa [toStates] using hb
          · exact absurd h (by simp)
        · exact absurd h (by simp)
      · exact absurd h (by simp)
    · exact absurd h (by simp)

theorem claim_C6_witness :
    "in_progress".data = "in_progress".data ∨ "in_progress".data = "paused".data :=
  claim_C6.2.2.1 "changed status from unstarted to in_progress".data
    "unstarted".data "in_progress".data (by decide)

/-- C8 counterexample: adding the zero-length interval `[0, 0]` (allowed by
the claim, which includes zero-length intervals) to the empty distribution
creates an explicit day entry with value zero — `defaultdict.__getitem__`
inserts the key even for a zero contribution — refuting the claim that
stored keys always carry non-zero durations. -/
theorem claim_C8_counterexample : ¬claimC8Statement := by
  intro h
  have hre : Reachable (TimeDistribution.init.add 0 0) :=
    Reachable.add TimeDistribution.init 0 0 Reachable.empty le_rfl
  exact (h _ hre).1 (-1) (by decide) (by decide)

/-- C8 (amended): on every distribution reachable from `TimeDistribution()`
by `add` on intervals with start < end (strictly positive length) and by
`__add__`, every stored day-bucket and week-bucket key carries a non-zero
accumulated duration.  (A zero-length interval, by contrast, does create
an explicit zero entry, which is what forces the strictness.) -/
theorem claim_C8 (t : TimeDistribution) (h : ReachablePos t) :
    (∀ k, k ∈ keys t.days → lookup t.days k ≠ 0) ∧
    (∀ k, k ∈ keys t.weeks → lookup t.weeks k ≠ 0) := by
  obtain ⟨_, hd, hw⟩ := h.posDist
  exact ⟨fun k hk => ne_of_gt (hd k hk), fun k hk => ne_of_gt (hw k hk)⟩

theorem claim_C8_witness :
    lookup (TimeDistribution.init.add 0 60).days (-1) ≠ 0 :=
  (claim_C8 _ (ReachablePos.add TimeDistribution.init 0 60 ReachablePos.empty
    (by norm_num))).1 (-1) (by decide)

/-- C9 counterexample: the run `[→in_progress @5, →paused @5,
→in_progress @5]` (timestamps non-decreasing) ends in Active(5) and its
output contains the interval (5, 5), whose start IS the dangling start —
refuting the claim that the output never contains an interval with the
dangling start. -/
theorem claim_C9_counterexample : ¬claimC9Statement := by
  intro h
  exact h none none [activationEvent 5, pauseEvent 5, activationEvent 5] [(5, 5)] 5
    (by decide) (5, 5) (List.mem_singleton_self _) rfl

/-- C9 (amended): a dangling Active state at end of input contributes no
interval: processing the empty remainder emits nothing whatever the state;
an activation event itself never emits an interval; and every emitted
interval ends at the timestamp of a `paused`/`fixed` terminator event of
the input.  (An earlier closed interval may, however, coincidentally share
the dangling start timestamp.) -/
theorem claim_C9 :
    (∀ (el ll : Option Int) (st : Option Int),
      extractAux el ll [] st = .ok ([], st)) ∧
    (∀ (el ll : Option Int) (ev : LogEvent) (rest : List LogEvent) (st0 : Option Int)
        (f : Option (List Char)),
      parse_status ev.status = some (f, some "in_progress".data) →
      extractAux el ll (ev :: rest) st0 =
        extractAux el ll rest
          (if filtered el ll ev.timestamp then st0 else some ev.timestamp)) ∧
    (∀ (el ll : Option Int) (evs : List LogEvent) (st0 : Option Int)
        (ivs : List (Int × Int)) (st : Option Int),
      extractAux el ll evs st0 = .ok (ivs, st) →
      ∀ iv, iv ∈ ivs → ∃ ev, ev ∈ evs ∧ iv.2 = ev.timestamp ∧
        ∃ f w, parse_status ev.status = some (f, some w) ∧
          (w = "paused".data ∨ w = "fixed".data)) :=
  ⟨fun el ll st => rfl, extractAux_activation,
    fun el ll => extractAux_intervals_from_terminators el ll⟩

theorem claim_C9_witness :
    ∃ ev, ev ∈ [activationEvent 1, pauseEvent 4] ∧
      ((1 : Int), (4 : Int)).2 = ev.timestamp ∧
      ∃ f w, parse_status ev.status = some (f, some w) ∧
        (w = "paused".data ∨ w = "fixed".data) :=
  claim_C9.2.2 none none [activationEvent 1, pauseEvent 4] none [(1, 4)] none
    (by decide) (1, 4) (List.mem_singleton_self _)

end PyDitz
